import Mathlib

/-!
# Verification of the G(n,p) bound-computation engine (`pysrc/bounds.py`)

This file is a shallow embedding, over the real numbers, of the bound-computation
engine of the repository: the combinatorics primitive `binom`, the claw moment
calculator (`exp_claws`, `inverted_second_moment_claws`), the simplicial-clique
moment calculator (`exp_simp_clique`, `better_second_moment_cliques`), the
probability transforms (`first_moment`, `inverted_first_moment`, `second_moment`,
`inverted_second_moment`), the regime composer (`prob_connected`,
`get_lower_bound`, `get_upper_bound`) and the threshold search
(`gnp_almost_surely_scf_get_n`, `gnp_almost_surely_scf_get_threshold`).

Modelling conventions:

* Floating-point numbers are modelled as real numbers; `n`, the loop indices and
  `k_max` are natural numbers, as in the source all of them are Python integers.
* `scipy.special.comb(n, k)` (with `exact=False`) returns `0` whenever `k < 0`,
  `n < 0` or `k > n`; every call in the source passes integers, so `binom` is
  embedded as a function `ℤ → ℤ → ℝ`.
* The exponent `binom(k, 2)` in `p ** binom(k, 2)` is a non-negative integer
  valued float; since the base `p` is positive, `p ** binom(k, 2)` coincides
  with the natural-number power `p ^ (k.choose 2)` used here.
* Python's `round` (banker's rounding) and Lean's `round` (round half up) agree
  except at exact half-integers.  The live arguments of `round` in the source
  are `log n` and `n / log n` for an integer `n ≥ 2`; these are irrational
  (`log n` is transcendental), so the two conventions coincide on every input
  the composer can produce.
* Divisions inside the bound layer are performed on NumPy scalars, which never
  raise: `x / 0` propagates as `±inf` and `1 - 1/(±inf) = 1`.  They are
  modelled by total real division (Lean's convention `x / 0 = 0`), which
  produces the same final bound values: the only division by zero reachable
  from `get_lower_bound`/`get_upper_bound` is
  `· / binom(n, 4)` inside `inverted_second_moment_claws` for `n ≤ 3`, where
  both conventions make the claw factor `1 - 1/ismc` equal to `1`.
* The standalone transforms `second_moment` and `inverted_second_moment` are
  plain Python divisions on scalars; a division whose divisor is exactly `0`
  fails there instead of returning a value, so these two functions are embedded
  with `Option` results (`none` = the evaluation divides by zero).
-/

open Finset

noncomputable section

/-- `binom(n, k) = scipy.special.comb(n, k)`: the binomial coefficient, `0`
whenever `k < 0`, `n < 0` or `k > n`.  Every call site of the source passes
integers. -/
def binom (n k : ℤ) : ℝ :=
  if 0 ≤ n ∧ 0 ≤ k ∧ k ≤ n then (n.toNat.choose k.toNat : ℝ) else 0

/-- `_exp_claws(n, p) = n * binom(n - 1, 3) * p**3 * (1 - p)**3`. -/
def exp_claws (n : ℕ) (p : ℝ) : ℝ :=
  n * binom ((n : ℤ) - 1) 3 * p ^ 3 * (1 - p) ^ 3

/-- `_inverted_second_moment_claws(n, p)` with `p_ = 1 - p`. -/
def inverted_second_moment_claws (n : ℕ) (p : ℝ) : ℝ :=
  (binom ((n : ℤ) - 4) 4
      + 4 * binom ((n : ℤ) - 4) 3
      + 3 * binom ((n : ℤ) - 4) 2 / (2 * p * (1 - p))
      + ((n : ℝ) - 4) / 4 * (1 / (1 - p) ^ 3 + 3 / (p ^ 2 * (1 - p)))
      + 1 / (4 * p ^ 3 * (1 - p) ^ 3))
    / binom (n : ℤ) 4

/-- `_variance_claws(n, p) = exp_claws(n, p)**2 * inverted_second_moment_claws(n, p)`. -/
def variance_claws (n : ℕ) (p : ℝ) : ℝ :=
  exp_claws n p ^ 2 * inverted_second_moment_claws n p

/-- The inner neighbourhood sum shared by `_exp_simp_clique` and
`_better_second_moment_cliques`:
`neigh = Σ_{l=0}^{n-k} binom(n-k, l) * p**l * (1-p)**(n-k-l) * p**binom(l, 2)`.
The Python loop `for l in range(0, n - k + 1)` is empty when `k > n`. -/
def neigh (n k : ℕ) (p : ℝ) : ℝ :=
  ∑ l in range (((n : ℤ) - k + 1).toNat),
    binom ((n : ℤ) - k) (l : ℤ) * p ^ l * (1 - p) ^ (((n : ℤ) - k - l).toNat)
      * p ^ (l.choose 2)

/-- `_exp_simp_clique(n, p, k_max)`:
`ret = Σ_{k=1}^{k_max} binom(n, k) * p**binom(k, 2) * neigh**k`. -/
def exp_simp_clique (n : ℕ) (p : ℝ) (k_max : ℕ) : ℝ :=
  ∑ k in Icc 1 k_max, binom (n : ℤ) (k : ℤ) * p ^ (k.choose 2) * neigh n k p ^ k

/-- The `correction` accumulator of `_better_second_moment_cliques`:
`correction = Σ_{k=1}^{k_max} binom(n, k) * (p**binom(k, 2) * neigh**k)**2`
(the inner `neigh` loop of the source recomputes exactly `neigh n k p`). -/
def correction_cliques (n : ℕ) (p : ℝ) (k_max : ℕ) : ℝ :=
  ∑ k in Icc 1 k_max,
    binom (n : ℤ) (k : ℤ) * (p ^ (k.choose 2) * neigh n k p ^ k) ^ 2

/-- `_better_second_moment_cliques(n, p, k_max)
  = 1 / (1 + 1/exp - correction/exp**2)` with `exp = exp_simp_clique(n, p, k_max)`. -/
def better_second_moment_cliques (n : ℕ) (p : ℝ) (k_max : ℕ) : ℝ :=
  1 / (1 + 1 / exp_simp_clique n p k_max
        - correction_cliques n p k_max / exp_simp_clique n p k_max ^ 2)

/-- `first_moment(exp) = exp`. -/
def first_moment (exp : ℝ) : ℝ := exp

/-- `inverted_first_moment(exp) = 1 - exp`. -/
def inverted_first_moment (exp : ℝ) : ℝ := 1 - exp

/-- `second_moment(exp) = 1 / (1 + 1 / exp)`, with `none` when a division by
zero occurs (Python scalar division raises on a divisor that is exactly `0`). -/
def second_moment (exp : ℝ) : Option ℝ :=
  if exp = 0 then none
  else if 1 + 1 / exp = 0 then none
  else some (1 / (1 + 1 / exp))

/-- `inverted_second_moment(exp) = 1 / (exp + 1)`, with `none` when the
division by zero occurs. -/
def inverted_second_moment (exp : ℝ) : Option ℝ :=
  if exp + 1 = 0 then none else some (1 / (exp + 1))

/-- `prob_connected(n, p) = exp(-exp(-c))` with `c = n * p / log(n)`. -/
def prob_connected (n : ℕ) (p : ℝ) : ℝ :=
  Real.exp (-Real.exp (-((n : ℝ) * p / Real.log n)))

/-- `size = round(ln_n)` in the sparse branch of both bound functions. -/
def sparse_size (n : ℕ) : ℕ := (round (Real.log n)).toNat

/-- `num_components = round(n / ln_n)` in the sparse branch of both bound
functions. -/
def sparse_num_components (n : ℕ) : ℕ := (round ((n : ℝ) / Real.log n)).toNat

/-- `claw_lower_connected * clique_lower_connected` in `get_lower_bound`:
`max(0, inverted_first_moment(exp_claws(n, p))) * better_second_moment_cliques(n, p, n)`. -/
def lower_connected_estimate (n : ℕ) (p : ℝ) : ℝ :=
  max 0 (inverted_first_moment (exp_claws n p)) * better_second_moment_cliques n p n

/-- `claw_lower_unconnected * clique_lower_unconnected` in `get_lower_bound`,
after the regime case split on `p`.  In the critical branch
(`1/n ≤ p < log n / n`) the giant-plus-small-components values computed at
lines 122–130 of the source are immediately overwritten at lines 131–132, so
only the overwriting assignments appear here. -/
def lower_unconnected_estimate (n : ℕ) (p : ℝ) : ℝ :=
  if p < 1 / n then
    max 0 (inverted_first_moment (exp_claws (sparse_size n) p)) ^ sparse_num_components n
      * better_second_moment_cliques (sparse_size n) p (sparse_size n)
          ^ sparse_num_components n
  else if p < Real.log n / n then
    max 0 (inverted_first_moment (exp_claws n p)) * better_second_moment_cliques n p n
  else
    lower_connected_estimate n p

/-- `get_lower_bound(n, p)`: the final return expression
`connected * claw_lower_connected * clique_lower_connected
  + (1 - connected) * claw_lower_unconnected * clique_lower_unconnected`. -/
def get_lower_bound (n : ℕ) (p : ℝ) : ℝ :=
  prob_connected n p * lower_connected_estimate n p
    + (1 - prob_connected n p) * lower_unconnected_estimate n p

/-- `claw_upper_connected * clique_upper_connected` in `get_upper_bound`:
`(1 - 1 / inverted_second_moment_claws(n, p)) * min(1, first_moment(exp_simp_clique(n, p, n)))`. -/
def upper_connected_estimate (n : ℕ) (p : ℝ) : ℝ :=
  (1 - 1 / inverted_second_moment_claws n p)
    * min 1 (first_moment (exp_simp_clique n p n))

/-- `claw_upper_unconnected * clique_upper_unconnected` in `get_upper_bound`.
In the critical branch the giant-plus-small-components values computed at
lines 170–177 of the source are immediately overwritten at lines 178–179 with
`max(0, inverted_first_moment(exp_claws(n, p)))` and
`better_second_moment_cliques(n, p, n)` — the lower-bound connected-regime
formulas, not the upper-bound ones. -/
def upper_unconnected_estimate (n : ℕ) (p : ℝ) : ℝ :=
  if p < 1 / n then
    (1 - 1 / inverted_second_moment_claws (sparse_size n) p) ^ sparse_num_components n
      * min 1 (first_moment (exp_simp_clique (sparse_size n) p (sparse_size n)))
          ^ sparse_num_components n
  else if p < Real.log n / n then
    max 0 (inverted_first_moment (exp_claws n p)) * better_second_moment_cliques n p n
  else
    upper_connected_estimate n p

/-- `get_upper_bound(n, p)`: the final return expression. -/
def get_upper_bound (n : ℕ) (p : ℝ) : ℝ :=
  prob_connected n p * upper_connected_estimate n p
    + (1 - prob_connected n p) * upper_unconnected_estimate n p

/-- The value `get_lower_bound` returns when the connected-regime
(`p ≥ log n / n`) branch is taken. -/
def lower_bound_connected_branch (n : ℕ) (p : ℝ) : ℝ :=
  prob_connected n p * lower_connected_estimate n p
    + (1 - prob_connected n p) * lower_connected_estimate n p

/-- The value `get_upper_bound` returns when the connected-regime
(`p ≥ log n / n`) branch is taken. -/
def upper_bound_connected_branch (n : ℕ) (p : ℝ) : ℝ :=
  prob_connected n p * upper_connected_estimate n p
    + (1 - prob_connected n p) * upper_connected_estimate n p

/-- `gnp_almost_surely_scf_get_n(p, threshold)`: the loop starts at `n = 1`,
increments `n` before each test and breaks at the first `n` with
`not (get_lower_bound(n, p) >= threshold)`; it therefore returns the least
`n ≥ 2` failing the bound (and diverges when no such `n` exists, the modelled
set being empty and `sInf ∅ = 0` standing in for the missing value). -/
def gnp_almost_surely_scf_get_n (p threshold : ℝ) : ℕ :=
  sInf {n : ℕ | 2 ≤ n ∧ ¬ get_lower_bound n p ≥ threshold}

/-- `gnp_almost_surely_scf_get_threshold(n, p) = get_lower_bound(n, p)`. -/
def gnp_almost_surely_scf_get_threshold (n : ℕ) (p : ℝ) : ℝ :=
  get_lower_bound n p

end

/-! ## Basic facts about `binom` -/

theorem binom_coe_nat (m l : ℕ) : binom (m : ℤ) (l : ℤ) = (m.choose l : ℝ) := by
  unfold binom
  by_cases h : (l : ℤ) ≤ (m : ℤ)
  · rw [if_pos ⟨Int.ofNat_nonneg m, Int.ofNat_nonneg l, h⟩]
    simp
  · rw [if_neg (by tauto), Nat.choose_eq_zero_of_lt (by exact_mod_cast not_le.mp h)]
    simp

theorem binom_nonneg (n k : ℤ) : 0 ≤ binom n k := by
  unfold binom
  split
  · positivity
  · exact le_rfl

theorem binom_eq_zero_of_lt {n k : ℤ} (h : n < k) : binom n k = 0 := by
  unfold binom
  rw [if_neg]
  rintro ⟨-, -, hkn⟩
  exact absurd h (not_lt.mpr hkn)

theorem binom_eq_zero_of_neg {n k : ℤ} (h : n < 0) : binom n k = 0 := by
  unfold binom
  rw [if_neg]
  rintro ⟨hn, -, -⟩
  exact absurd h (not_lt.mpr hn)

/-! ## Polynomial casts for small binomial coefficients -/

theorem cast_choose_three (m : ℕ) :
    (m.choose 3 : ℝ) = m * ((m : ℝ) - 1) * ((m : ℝ) - 2) / 6 := by
  induction m with
  | zero => norm_num
  | succ m ih =>
    rw [Nat.choose_succ_succ]
    push_cast
    rw [Nat.cast_choose_two, ih]
    ring

theorem cast_choose_four (m : ℕ) :
    (m.choose 4 : ℝ) = m * ((m : ℝ) - 1) * ((m : ℝ) - 2) * ((m : ℝ) - 3) / 24 := by
  induction m with
  | zero => norm_num
  | succ m ih =>
    rw [Nat.choose_succ_succ]
    push_cast
    rw [cast_choose_three, ih]
    ring

theorem binom_sub_four (n : ℕ) (h : 4 ≤ n) :
    binom ((n : ℤ) - 4) 4
      = ((n : ℝ) - 4) * ((n : ℝ) - 5) * ((n : ℝ) - 6) * ((n : ℝ) - 7) / 24 := by
  have h4 : (n : ℤ) - 4 = ((n - 4 : ℕ) : ℤ) := by omega
  rw [h4, show (4 : ℤ) = ((4 : ℕ) : ℤ) from rfl, binom_coe_nat, cast_choose_four]
  have hc : ((n - 4 : ℕ) : ℝ) = (n : ℝ) - 4 := by
    push_cast [Nat.cast_sub h]
    ring
  rw [hc]
  ring

theorem binom_sub_three (n : ℕ) (h : 4 ≤ n) :
    binom ((n : ℤ) - 4) 3
      = ((n : ℝ) - 4) * ((n : ℝ) - 5) * ((n : ℝ) - 6) / 6 := by
  have h4 : (n : ℤ) - 4 = ((n - 4 : ℕ) : ℤ) := by omega
  rw [h4, show (3 : ℤ) = ((3 : ℕ) : ℤ) from rfl, binom_coe_nat, cast_choose_three]
  have hc : ((n - 4 : ℕ) : ℝ) = (n : ℝ) - 4 := by
    push_cast [Nat.cast_sub h]
    ring
  rw [hc]
  ring

theorem binom_sub_two (n : ℕ) (h : 4 ≤ n) :
    binom ((n : ℤ) - 4) 2 = ((n : ℝ) - 4) * ((n : ℝ) - 5) / 2 := by
  have h4 : (n : ℤ) - 4 = ((n - 4 : ℕ) : ℤ) := by omega
  rw [h4, show (2 : ℤ) = ((2 : ℕ) : ℤ) from rfl, binom_coe_nat, Nat.cast_choose_two]
  have hc : ((n - 4 : ℕ) : ℝ) = (n : ℝ) - 4 := by
    push_cast [Nat.cast_sub h]
    ring
  rw [hc]
  ring

theorem binom_four_cast (n : ℕ) :
    binom (n : ℤ) 4 = (n : ℝ) * ((n : ℝ) - 1) * ((n : ℝ) - 2) * ((n : ℝ) - 3) / 24 := by
  rw [show (4 : ℤ) = ((4 : ℕ) : ℤ) from rfl, binom_coe_nat, cast_choose_four]

theorem binom_sub_one_three (n : ℕ) (h : 1 ≤ n) :
    binom ((n : ℤ) - 1) 3
      = ((n : ℝ) - 1) * ((n : ℝ) - 2) * ((n : ℝ) - 3) / 6 := by
  have h1 : (n : ℤ) - 1 = ((n - 1 : ℕ) : ℤ) := by omega
  rw [h1, show (3 : ℤ) = ((3 : ℕ) : ℤ) from rfl, binom_coe_nat, cast_choose_three]
  have hc : ((n - 1 : ℕ) : ℝ) = (n : ℝ) - 1 := by
    push_cast [Nat.cast_sub h]
    ring
  rw [hc]
  ring

/-! ## Facts about `exp_claws` -/

theorem exp_claws_nonneg (n : ℕ) (p : ℝ) (hp0 : 0 ≤ p) (hp1 : p ≤ 1) :
    0 ≤ exp_claws n p := by
  unfold exp_claws
  have := binom_nonneg ((n : ℤ) - 1) 3
  have h1 : (0 : ℝ) ≤ 1 - p := by linarith
  positivity

theorem exp_claws_eq_zero_of_le_three {n : ℕ} (h : n ≤ 3) (p : ℝ) :
    exp_claws n p = 0 := by
  unfold exp_claws
  rw [binom_eq_zero_of_lt (by omega)]
  ring

theorem exp_claws_pos {n : ℕ} (h : 4 ≤ n) {p : ℝ} (hp0 : 0 < p) (hp1 : p < 1) :
    0 < exp_claws n p := by
  unfold exp_claws
  rw [binom_sub_one_three n (by omega)]
  have h4 : (4 : ℝ) ≤ (n : ℝ) := by exact_mod_cast h
  have h1p : (0 : ℝ) < 1 - p := by linarith
  have hn : (0 : ℝ) < n := by linarith
  have : (0 : ℝ) < ((n : ℝ) - 1) * ((n : ℝ) - 2) * ((n : ℝ) - 3) / 6 := by
    have : (0:ℝ) < (n:ℝ) - 1 := by linarith
    have : (0:ℝ) < (n:ℝ) - 2 := by linarith
    have : (0:ℝ) < (n:ℝ) - 3 := by linarith
    positivity
  positivity

/-! ## The binomial theorem specialised to `p + (1 - p) = 1` -/

theorem binomial_sum (m : ℕ) (p : ℝ) :
    ∑ l in range (m + 1), (m.choose l : ℝ) * p ^ l * (1 - p) ^ (m - l) = 1 := by
  have h := add_pow p (1 - p) m
  rw [show p + (1 - p) = 1 by ring, one_pow] at h
  calc ∑ l in range (m + 1), (m.choose l : ℝ) * p ^ l * (1 - p) ^ (m - l)
      = ∑ l in range (m + 1), p ^ l * (1 - p) ^ (m - l) * (m.choose l : ℝ) :=
        Finset.sum_congr rfl fun l _ => by ring
    _ = 1 := h.symm

/-! ## Facts about `neigh` -/

theorem neigh_eq_of_le {n k : ℕ} (h : k ≤ n) (p : ℝ) :
    neigh n k p
      = ∑ l in range (n - k + 1),
          ((n - k).choose l : ℝ) * p ^ l * (1 - p) ^ (n - k - l) * p ^ (l.choose 2) := by
  unfold neigh
  have hrange : (((n : ℤ) - k + 1)).toNat = n - k + 1 := by omega
  rw [hrange]
  refine Finset.sum_congr rfl fun l hl => ?_
  have hl' : l ≤ n - k := by
    have := Finset.mem_range.mp hl
    omega
  have h1 : ((n : ℤ) - k) = ((n - k : ℕ) : ℤ) := by omega
  have h2 : (((n : ℤ) - k - l)).toNat = n - k - l := by omega
  rw [h2, h1, binom_coe_nat]

theorem neigh_nonneg (n k : ℕ) {p : ℝ} (hp0 : 0 ≤ p) (hp1 : p ≤ 1) :
    0 ≤ neigh n k p := by
  unfold neigh
  refine Finset.sum_nonneg fun l _ => ?_
  have := binom_nonneg ((n : ℤ) - k) (l : ℤ)
  have h1 : (0 : ℝ) ≤ 1 - p := by linarith
  positivity

theorem neigh_le_one (n k : ℕ) {p : ℝ} (hp0 : 0 ≤ p) (hp1 : p ≤ 1) :
    neigh n k p ≤ 1 := by
  by_cases h : k ≤ n
  · rw [neigh_eq_of_le h]
    calc ∑ l in range (n - k + 1),
          ((n - k).choose l : ℝ) * p ^ l * (1 - p) ^ (n - k - l) * p ^ (l.choose 2)
        ≤ ∑ l in range (n - k + 1),
          ((n - k).choose l : ℝ) * p ^ l * (1 - p) ^ (n - k - l) := by
          refine Finset.sum_le_sum fun l _ => ?_
          have h1 : (0 : ℝ) ≤ 1 - p := by linarith
          have hb : (0 : ℝ) ≤ ((n - k).choose l : ℝ) * p ^ l * (1 - p) ^ (n - k - l) := by
            positivity
          have hple : p ^ (l.choose 2) ≤ 1 := pow_le_one₀ hp0 hp1
          exact mul_le_of_le_one_right hb hple
      _ = 1 := binomial_sum (n - k) p
  · unfold neigh
    have hempty : (((n : ℤ) - k + 1)).toNat = 0 := by omega
    rw [hempty]
    simp

theorem neigh_pos {n k : ℕ} (h : k ≤ n) {p : ℝ} (hp0 : 0 < p) (hp1 : p < 1) :
    0 < neigh n k p := by
  rw [neigh_eq_of_le h]
  have h1 : (0 : ℝ) < 1 - p := by linarith
  refine Finset.sum_pos' (fun l _ => ?_) ⟨0, Finset.mem_range.mpr (by omega), ?_⟩
  · positivity
  · simp only [Nat.choose_zero_right, Nat.cast_one, pow_zero, Nat.sub_zero]
    positivity

/-! ## Facts about `exp_simp_clique` and `better_second_moment_cliques` -/

theorem clique_term_nonneg (n k : ℕ) {p : ℝ} (hp0 : 0 ≤ p) (hp1 : p ≤ 1) :
    0 ≤ p ^ (k.choose 2) * neigh n k p ^ k := by
  have := neigh_nonneg n k hp0 hp1
  positivity

theorem clique_term_le_one (n k : ℕ) {p : ℝ} (hp0 : 0 ≤ p) (hp1 : p ≤ 1) :
    p ^ (k.choose 2) * neigh n k p ^ k ≤ 1 := by
  have h1 : p ^ (k.choose 2) ≤ 1 := pow_le_one₀ hp0 hp1
  have h2 : neigh n k p ^ k ≤ 1 :=
    pow_le_one₀ (neigh_nonneg n k hp0 hp1) (neigh_le_one n k hp0 hp1)
  have h3 : (0 : ℝ) ≤ p ^ (k.choose 2) := by positivity
  calc p ^ (k.choose 2) * neigh n k p ^ k ≤ 1 * 1 :=
        mul_le_mul h1 h2 (pow_nonneg (neigh_nonneg n k hp0 hp1) k) (by norm_num)
    _ = 1 := by norm_num

theorem exp_simp_clique_nonneg (n : ℕ) {p : ℝ} (hp0 : 0 ≤ p) (hp1 : p ≤ 1)
    (k_max : ℕ) : 0 ≤ exp_simp_clique n p k_max := by
  unfold exp_simp_clique
  refine Finset.sum_nonneg fun k _ => ?_
  have hb := binom_nonneg (n : ℤ) (k : ℤ)
  have hn := neigh_nonneg n k hp0 hp1
  positivity

theorem exp_simp_clique_pos {n k_max : ℕ} (hn : 1 ≤ n) (hk : 1 ≤ k_max)
    {p : ℝ} (hp0 : 0 < p) (hp1 : p < 1) : 0 < exp_simp_clique n p k_max := by
  unfold exp_simp_clique
  refine Finset.sum_pos' (fun k _ => ?_) ⟨1, Finset.mem_Icc.mpr ⟨le_rfl, hk⟩, ?_⟩
  · have hb := binom_nonneg (n : ℤ) (k : ℤ)
    have hne := neigh_nonneg n k hp0.le hp1.le
    positivity
  · have h1 : binom (n : ℤ) ((1 : ℕ) : ℤ) = (n.choose 1 : ℝ) := binom_coe_nat n 1
    rw [h1, Nat.choose_one_right]
    have hne := neigh_pos hn hp0 hp1
    have hnn : (0 : ℝ) < (n : ℝ) := by exact_mod_cast hn
    simp only [Nat.choose_one_right, pow_one]
    positivity

theorem correction_cliques_nonneg (n : ℕ) (p : ℝ) (k_max : ℕ) :
    0 ≤ correction_cliques n p k_max := by
  unfold correction_cliques
  refine Finset.sum_nonneg fun k _ => ?_
  have hb := binom_nonneg (n : ℤ) (k : ℤ)
  positivity

theorem correction_le_exp_simp (n : ℕ) {p : ℝ} (hp0 : 0 ≤ p) (hp1 : p ≤ 1)
    (k_max : ℕ) : correction_cliques n p k_max ≤ exp_simp_clique n p k_max := by
  unfold correction_cliques exp_simp_clique
  refine Finset.sum_le_sum fun k _ => ?_
  have hb := binom_nonneg (n : ℤ) (k : ℤ)
  have hc0 := clique_term_nonneg n k hp0 hp1
  have hc1 := clique_term_le_one n k hp0 hp1
  have hsq : (p ^ (k.choose 2) * neigh n k p ^ k) ^ 2
      ≤ p ^ (k.choose 2) * neigh n k p ^ k := by
    nlinarith
  calc binom (n : ℤ) (k : ℤ) * (p ^ (k.choose 2) * neigh n k p ^ k) ^ 2
      ≤ binom (n : ℤ) (k : ℤ) * (p ^ (k.choose 2) * neigh n k p ^ k) :=
        mul_le_mul_of_nonneg_left hsq hb
    _ = binom (n : ℤ) (k : ℤ) * p ^ (k.choose 2) * neigh n k p ^ k := by ring

theorem sum_sq_le_sq_sum {s : Finset ℕ} {f : ℕ → ℝ} (h : ∀ i ∈ s, 0 ≤ f i) :
    ∑ i in s, f i ^ 2 ≤ (∑ i in s, f i) ^ 2 := by
  have hstep : ∀ i ∈ s, f i ^ 2 ≤ f i * ∑ j in s, f j := by
    intro i hi
    have hle : f i ≤ ∑ j in s, f j := Finset.single_le_sum h hi
    have := h i hi
    nlinarith
  calc ∑ i in s, f i ^ 2 ≤ ∑ i in s, f i * ∑ j in s, f j := Finset.sum_le_sum hstep
    _ = (∑ i in s, f i) ^ 2 := by rw [← Finset.sum_mul]; ring

theorem correction_le_sq_exp_simp (n : ℕ) {p : ℝ} (hp0 : 0 ≤ p) (hp1 : p ≤ 1)
    (k_max : ℕ) :
    correction_cliques n p k_max ≤ exp_simp_clique n p k_max ^ 2 := by
  have hterm : ∀ k ∈ Icc 1 k_max,
      binom (n : ℤ) (k : ℤ) * (p ^ (k.choose 2) * neigh n k p ^ k) ^ 2
        ≤ (binom (n : ℤ) (k : ℤ) * (p ^ (k.choose 2) * neigh n k p ^ k)) ^ 2 := by
    intro k _
    have hc0 := clique_term_nonneg n k hp0 hp1
    have hb := binom_nonneg (n : ℤ) (k : ℤ)
    have hb1 : binom (n : ℤ) (k : ℤ) ≤ binom (n : ℤ) (k : ℤ) ^ 2 := by
      unfold binom
      split
      · rcases Nat.eq_zero_or_pos ((n : ℤ).toNat.choose (k : ℤ).toNat) with h0 | h1
        · rw [h0]; norm_num
        · have : (1 : ℝ) ≤ ((n : ℤ).toNat.choose (k : ℤ).toNat : ℝ) := by
            exact_mod_cast h1
          nlinarith
      · norm_num
    calc binom (n : ℤ) (k : ℤ) * (p ^ (k.choose 2) * neigh n k p ^ k) ^ 2
        ≤ binom (n : ℤ) (k : ℤ) ^ 2 * (p ^ (k.choose 2) * neigh n k p ^ k) ^ 2 := by
          nlinarith
      _ = (binom (n : ℤ) (k : ℤ) * (p ^ (k.choose 2) * neigh n k p ^ k)) ^ 2 := by
          ring
  have hsq : ∀ k ∈ Icc 1 k_max,
      0 ≤ binom (n : ℤ) (k : ℤ) * (p ^ (k.choose 2) * neigh n k p ^ k) := by
    intro k _
    exact mul_nonneg (binom_nonneg _ _) (clique_term_nonneg n k hp0 hp1)
  calc correction_cliques n p k_max
      ≤ ∑ k in Icc 1 k_max,
          (binom (n : ℤ) (k : ℤ) * (p ^ (k.choose 2) * neigh n k p ^ k)) ^ 2 :=
        Finset.sum_le_sum hterm
    _ ≤ (∑ k in Icc 1 k_max,
          binom (n : ℤ) (k : ℤ) * (p ^ (k.choose 2) * neigh n k p ^ k)) ^ 2 :=
        sum_sq_le_sq_sum hsq
    _ = exp_simp_clique n p k_max ^ 2 := by
        unfold exp_simp_clique
        congr 1
        exact Finset.sum_congr rfl fun k _ => by ring

theorem bsmc_denom_ge_one {n k_max : ℕ} (hn : 1 ≤ n) (hk : 1 ≤ k_max)
    {p : ℝ} (hp0 : 0 < p) (hp1 : p < 1) :
    1 ≤ 1 + 1 / exp_simp_clique n p k_max
        - correction_cliques n p k_max / exp_simp_clique n p k_max ^ 2 := by
  have hE := exp_simp_clique_pos hn hk hp0 hp1
  have hC := correction_le_exp_simp n hp0.le hp1.le k_max
  have hdiv : correction_cliques n p k_max / exp_simp_clique n p k_max ^ 2
      ≤ 1 / exp_simp_clique n p k_max := by
    rw [div_le_div_iff (by positivity) hE]
    calc correction_cliques n p k_max * exp_simp_clique n p k_max
        ≤ exp_simp_clique n p k_max * exp_simp_clique n p k_max :=
          mul_le_mul_of_nonneg_right hC hE.le
      _ = 1 * exp_simp_clique n p k_max ^ 2 := by ring
  linarith

theorem bsmc_pos {n k_max : ℕ} (hn : 1 ≤ n) (hk : 1 ≤ k_max)
    {p : ℝ} (hp0 : 0 < p) (hp1 : p < 1) :
    0 < better_second_moment_cliques n p k_max := by
  unfold better_second_moment_cliques
  have := bsmc_denom_ge_one hn hk hp0 hp1
  positivity

theorem bsmc_le_one {n k_max : ℕ} (hn : 1 ≤ n) (hk : 1 ≤ k_max)
    {p : ℝ} (hp0 : 0 < p) (hp1 : p < 1) :
    better_second_moment_cliques n p k_max ≤ 1 := by
  unfold better_second_moment_cliques
  have h := bsmc_denom_ge_one hn hk hp0 hp1
  rw [div_le_one (by linarith)]
  linarith

theorem bsmc_le_exp_simp {n k_max : ℕ} (hn : 1 ≤ n) (hk : 1 ≤ k_max)
    {p : ℝ} (hp0 : 0 < p) (hp1 : p < 1) :
    better_second_moment_cliques n p k_max ≤ exp_simp_clique n p k_max := by
  unfold better_second_moment_cliques
  have hE := exp_simp_clique_pos hn hk hp0 hp1
  have hden := bsmc_denom_ge_one hn hk hp0 hp1
  have hC2 := correction_le_sq_exp_simp n hp0.le hp1.le k_max
  rw [div_le_iff (by linarith)]
  have key : exp_simp_clique n p k_max
        * (1 + 1 / exp_simp_clique n p k_max
            - correction_cliques n p k_max / exp_simp_clique n p k_max ^ 2)
      = exp_simp_clique n p k_max + 1
          - correction_cliques n p k_max / exp_simp_clique n p k_max := by
    field_simp
    ring
  rw [key]
  have hfrac : correction_cliques n p k_max / exp_simp_clique n p k_max
      ≤ exp_simp_clique n p k_max := by
    rw [div_le_iff hE]
    nlinarith
  linarith

theorem bsmc_le_min {n k_max : ℕ} (hn : 1 ≤ n) (hk : 1 ≤ k_max)
    {p : ℝ} (hp0 : 0 < p) (hp1 : p < 1) :
    better_second_moment_cliques n p k_max
      ≤ min 1 (first_moment (exp_simp_clique n p k_max)) :=
  le_min (bsmc_le_one hn hk hp0 hp1) (bsmc_le_exp_simp hn hk hp0 hp1)

/-! ## Facts about `inverted_second_moment_claws` -/

theorem four_p_one_sub_p_le_one {p : ℝ} : 2 * p * (1 - p) ≤ 1 / 2 := by
  nlinarith [sq_nonneg (2 * p - 1)]

theorem aux_X {p : ℝ} (hp0 : 0 < p) (hp1 : p < 1) :
    32 ≤ 1 / (1 - p) ^ 3 + 3 / (p ^ 2 * (1 - p)) := by
  have h1 : (0 : ℝ) < 1 - p := by linarith
  have hcombined : 1 / (1 - p) ^ 3 + 3 / (p ^ 2 * (1 - p))
      = (p ^ 2 + 3 * (1 - p) ^ 2) / (p ^ 2 * (1 - p) ^ 3) := by
    field_simp
    ring
  rw [hcombined, le_div_iff (by positivity)]
  have hg : (0 : ℝ) < 1 + 2 * (1 - p) + 8 * (1 - p) ^ 2 * p := by positivity
  have hkey : p ^ 2 + 3 * (1 - p) ^ 2 - 32 * (p ^ 2 * (1 - p) ^ 3)
      = (2 * p - 1) ^ 2 * (1 + 2 * (1 - p) + 8 * (1 - p) ^ 2 * p) := by
    ring
  nlinarith [mul_nonneg (sq_nonneg (2 * p - 1)) hg.le]

theorem aux_Y {p : ℝ} (hp0 : 0 < p) (hp1 : p < 1) :
    16 ≤ 1 / (4 * p ^ 3 * (1 - p) ^ 3) := by
  have h1 : (0 : ℝ) < 1 - p := by linarith
  rw [le_div_iff (by positivity)]
  have h4 : 4 * p * (1 - p) ≤ 1 := by nlinarith [sq_nonneg (2 * p - 1)]
  have hcube : (4 * p * (1 - p)) ^ 3 ≤ 1 ^ 3 :=
    pow_le_pow_left (by positivity) h4 3
  nlinarith [hcube]

theorem ismc_eq_zero_of_le_three {n : ℕ} (h : n ≤ 3) (p : ℝ) :
    inverted_second_moment_claws n p = 0 := by
  unfold inverted_second_moment_claws
  rw [show binom (n : ℤ) 4 = 0 from binom_eq_zero_of_lt (by exact_mod_cast by omega : (n : ℤ) < 4),
    div_zero]

theorem ismc_gt_one {n : ℕ} (h : 4 ≤ n) {p : ℝ} (hp0 : 0 < p) (hp1 : p < 1) :
    1 < inverted_second_moment_claws n p := by
  unfold inverted_second_moment_claws
  have h1p : (0 : ℝ) < 1 - p := by linarith
  have hx : (4 : ℝ) ≤ (n : ℝ) := by exact_mod_cast h
  have hB : (0 : ℝ) < binom (n : ℤ) 4 := by
    rw [binom_four_cast]
    have h0 : (0 : ℝ) < (n : ℝ) := by linarith
    have h1 : (0 : ℝ) < (n : ℝ) - 1 := by linarith
    have h2 : (0 : ℝ) < (n : ℝ) - 2 := by linarith
    have h3 : (0 : ℝ) < (n : ℝ) - 3 := by linarith
    positivity
  rw [lt_div_iff hB, one_mul]
  have hpp : (0 : ℝ) < 2 * p * (1 - p) := by positivity
  have hT3 : 0 ≤ binom ((n : ℤ) - 4) 2 := binom_nonneg _ _
  have hdivT3 : 6 * binom ((n : ℤ) - 4) 2
      ≤ 3 * binom ((n : ℤ) - 4) 2 / (2 * p * (1 - p)) := by
    rw [le_div_iff hpp]
    nlinarith [four_p_one_sub_p_le_one (p := p)]
  have hXc : 8 * ((n : ℝ) - 4)
      ≤ ((n : ℝ) - 4) / 4 * (1 / (1 - p) ^ 3 + 3 / (p ^ 2 * (1 - p))) := by
    have hc : (0 : ℝ) ≤ ((n : ℝ) - 4) / 4 := by linarith
    calc 8 * ((n : ℝ) - 4) = ((n : ℝ) - 4) / 4 * 32 := by ring
      _ ≤ ((n : ℝ) - 4) / 4 * (1 / (1 - p) ^ 3 + 3 / (p ^ 2 * (1 - p))) :=
        mul_le_mul_of_nonneg_left (aux_X hp0 hp1) hc
  have hY := aux_Y hp0 hp1
  rw [binom_sub_two n h] at hdivT3
  rw [binom_sub_four n h, binom_sub_three n h, binom_sub_two n h, binom_four_cast]
  have hpoly : (n : ℝ) * ((n : ℝ) - 1) * ((n : ℝ) - 2) * ((n : ℝ) - 3) / 24
      < ((n : ℝ) - 4) * ((n : ℝ) - 5) * ((n : ℝ) - 6) * ((n : ℝ) - 7) / 24
        + 4 * (((n : ℝ) - 4) * ((n : ℝ) - 5) * ((n : ℝ) - 6) / 6)
        + 6 * (((n : ℝ) - 4) * ((n : ℝ) - 5) / 2)
        + 8 * ((n : ℝ) - 4) + 16 := by
    have hid : ((n : ℝ) - 4) * ((n : ℝ) - 5) * ((n : ℝ) - 6) * ((n : ℝ) - 7) / 24
        + 4 * (((n : ℝ) - 4) * ((n : ℝ) - 5) * ((n : ℝ) - 6) / 6)
        + 6 * (((n : ℝ) - 4) * ((n : ℝ) - 5) / 2)
        + 8 * ((n : ℝ) - 4) + 16
        - (n : ℝ) * ((n : ℝ) - 1) * ((n : ℝ) - 2) * ((n : ℝ) - 3) / 24
        = 4 * (n : ℝ) - 1 := by ring
    linarith
  linarith

theorem ismc_ge_one {n : ℕ} (h : 4 ≤ n) {p : ℝ} (hp0 : 0 < p) (hp1 : p < 1) :
    1 ≤ inverted_second_moment_claws n p :=
  (ismc_gt_one h hp0 hp1).le

theorem ismc_nonneg (n : ℕ) {p : ℝ} (hp0 : 0 < p) (hp1 : p < 1) :
    0 ≤ inverted_second_moment_claws n p := by
  by_cases h : n ≤ 3
  · rw [ismc_eq_zero_of_le_three h]
  · exact le_trans zero_le_one (ismc_ge_one (by omega) hp0 hp1)

theorem ismc_mul_exp_claws {n : ℕ} (h : 4 ≤ n) {p : ℝ} (hp0 : 0 < p) (hp1 : p < 1) :
    1 ≤ inverted_second_moment_claws n p * exp_claws n p := by
  have h1p : (0 : ℝ) < 1 - p := by linarith
  have hx : (4 : ℝ) ≤ (n : ℝ) := by exact_mod_cast h
  have h0 : (0 : ℝ) < (n : ℝ) := by linarith
  have h1 : (0 : ℝ) < (n : ℝ) - 1 := by linarith
  have h2 : (0 : ℝ) < (n : ℝ) - 2 := by linarith
  have h3 : (0 : ℝ) < (n : ℝ) - 3 := by linarith
  have hB : (0 : ℝ) < binom (n : ℤ) 4 := by
    rw [binom_four_cast]
    positivity
  have hec : 0 < exp_claws n p := exp_claws_pos h hp0 hp1
  have hnum : 1 / (4 * p ^ 3 * (1 - p) ^ 3)
      ≤ binom ((n : ℤ) - 4) 4
          + 4 * binom ((n : ℤ) - 4) 3
          + 3 * binom ((n : ℤ) - 4) 2 / (2 * p * (1 - p))
          + ((n : ℝ) - 4) / 4 * (1 / (1 - p) ^ 3 + 3 / (p ^ 2 * (1 - p)))
          + 1 / (4 * p ^ 3 * (1 - p) ^ 3) := by
    have hT1 := binom_nonneg ((n : ℤ) - 4) 4
    have hT2 := binom_nonneg ((n : ℤ) - 4) 3
    have hT3 := binom_nonneg ((n : ℤ) - 4) 2
    have hpp : (0 : ℝ) < 2 * p * (1 - p) := by positivity
    have hd3 : 0 ≤ 3 * binom ((n : ℤ) - 4) 2 / (2 * p * (1 - p)) := by positivity
    have hXpos : (0 : ℝ)
        ≤ ((n : ℝ) - 4) / 4 * (1 / (1 - p) ^ 3 + 3 / (p ^ 2 * (1 - p))) := by
      have hc : (0 : ℝ) ≤ ((n : ℝ) - 4) / 4 := by linarith
      have hX : (0 : ℝ) ≤ 1 / (1 - p) ^ 3 + 3 / (p ^ 2 * (1 - p)) := by positivity
      positivity
    linarith
  have hmono : 1 / (4 * p ^ 3 * (1 - p) ^ 3) / binom (n : ℤ) 4
      ≤ inverted_second_moment_claws n p := by
    unfold inverted_second_moment_claws
    exact div_le_div_of_nonneg_right hnum hB.le
  have hexact : 1 / (4 * p ^ 3 * (1 - p) ^ 3) / binom (n : ℤ) 4 * exp_claws n p
      = 1 := by
    unfold exp_claws
    rw [binom_four_cast, binom_sub_one_three n (by omega)]
    field_simp
    ring
  calc (1 : ℝ) = 1 / (4 * p ^ 3 * (1 - p) ^ 3) / binom (n : ℤ) 4 * exp_claws n p :=
        hexact.symm
    _ ≤ inverted_second_moment_claws n p * exp_claws n p :=
        mul_le_mul_of_nonneg_right hmono hec.le

/-! ## The claw factors of the two bounds -/

theorem claw_upper_eq_one_of_le_three {n : ℕ} (h : n ≤ 3) (p : ℝ) :
    1 - 1 / inverted_second_moment_claws n p = 1 := by
  rw [ismc_eq_zero_of_le_three h, div_zero, sub_zero]

theorem claw_upper_nonneg (n : ℕ) {p : ℝ} (hp0 : 0 < p) (hp1 : p < 1) :
    0 ≤ 1 - 1 / inverted_second_moment_claws n p := by
  by_cases h : n ≤ 3
  · rw [claw_upper_eq_one_of_le_three h]
    norm_num
  · have h1 := ismc_ge_one (n := n) (by omega) hp0 hp1
    have : 1 / inverted_second_moment_claws n p ≤ 1 := by
      rw [div_le_one (by linarith)]
      linarith
    linarith

theorem claw_upper_le_one (n : ℕ) {p : ℝ} (hp0 : 0 < p) (hp1 : p < 1) :
    1 - 1 / inverted_second_moment_claws n p ≤ 1 := by
  have h := ismc_nonneg n hp0 hp1
  have : 0 ≤ 1 / inverted_second_moment_claws n p := by positivity
  linarith

theorem claw_lower_nonneg (n : ℕ) (p : ℝ) :
    0 ≤ max 0 (inverted_first_moment (exp_claws n p)) :=
  le_max_left 0 _

theorem claw_lower_le_one (n : ℕ) {p : ℝ} (hp0 : 0 ≤ p) (hp1 : p ≤ 1) :
    max 0 (inverted_first_moment (exp_claws n p)) ≤ 1 := by
  have h := exp_claws_nonneg n p hp0 hp1
  unfold inverted_first_moment
  rw [max_le_iff]
  constructor <;> linarith

theorem claw_lower_le_claw_upper (n : ℕ) {p : ℝ} (hp0 : 0 < p) (hp1 : p < 1) :
    max 0 (inverted_first_moment (exp_claws n p))
      ≤ 1 - 1 / inverted_second_moment_claws n p := by
  by_cases h3 : n ≤ 3
  · rw [claw_upper_eq_one_of_le_three h3, exp_claws_eq_zero_of_le_three h3]
    unfold inverted_first_moment
    norm_num
  · have h4 : 4 ≤ n := by omega
    by_cases hec : 1 ≤ exp_claws n p
    · have hmax : max 0 (inverted_first_moment (exp_claws n p)) = 0 := by
        unfold inverted_first_moment
        rw [max_eq_left (by linarith)]
      rw [hmax]
      exact claw_upper_nonneg n hp0 hp1
    · push_neg at hec
      have hecpos := exp_claws_pos h4 hp0 hp1
      have hmax : max 0 (inverted_first_moment (exp_claws n p))
          = 1 - exp_claws n p := by
        unfold inverted_first_moment
        rw [max_eq_right (by linarith)]
      rw [hmax]
      have hismc1 := ismc_ge_one h4 hp0 hp1
      have hprod := ismc_mul_exp_claws h4 hp0 hp1
      have hfrac : 1 / inverted_second_moment_claws n p ≤ exp_claws n p := by
        rw [div_le_iff (by linarith)]
        linarith [hprod, mul_comm (inverted_second_moment_claws n p) (exp_claws n p)]
      linarith

/-! ## Facts about `prob_connected` and the sparse-branch sizes -/

theorem prob_connected_pos (n : ℕ) (p : ℝ) : 0 < prob_connected n p :=
  Real.exp_pos _

theorem prob_connected_lt_one (n : ℕ) (p : ℝ) : prob_connected n p < 1 := by
  unfold prob_connected
  rw [Real.exp_lt_one_iff, neg_lt, neg_zero]
  exact Real.exp_pos _

theorem half_lt_log_two : (1 : ℝ) / 2 < Real.log 2 := by
  rw [Real.lt_log_iff_exp_lt (by norm_num : (0 : ℝ) < 2)]
  have hsq : Real.exp (1 / 2) * Real.exp (1 / 2) = Real.exp 1 := by
    rw [← Real.exp_add]
    norm_num
  have h1 := Real.exp_one_lt_d9
  nlinarith [Real.exp_pos ((1 : ℝ) / 2)]

theorem sparse_size_pos {n : ℕ} (hn : 2 ≤ n) : 1 ≤ sparse_size n := by
  unfold sparse_size
  have h2 : (1 : ℝ) / 2 < Real.log n := by
    calc (1 : ℝ) / 2 < Real.log 2 := half_lt_log_two
      _ ≤ Real.log n := Real.log_le_log (by norm_num) (by exact_mod_cast hn)
  have hround : 1 ≤ round (Real.log n) := by
    rw [round_eq]
    have : (1 : ℝ) ≤ Real.log n + 1 / 2 := by linarith
    exact_mod_cast Int.le_floor.mpr (by exact_mod_cast this)
  omega

/-! ## The per-regime estimates of the composer -/

theorem lce_nonneg {n : ℕ} (hn : 1 ≤ n) {p : ℝ} (hp0 : 0 < p) (hp1 : p < 1) :
    0 ≤ lower_connected_estimate n p :=
  mul_nonneg (claw_lower_nonneg n p) (bsmc_pos hn hn hp0 hp1).le

theorem lce_le_one {n : ℕ} (hn : 1 ≤ n) {p : ℝ} (hp0 : 0 < p) (hp1 : p < 1) :
    lower_connected_estimate n p ≤ 1 :=
  mul_le_one (claw_lower_le_one n hp0.le hp1.le) (bsmc_pos hn hn hp0 hp1).le
    (bsmc_le_one hn hn hp0 hp1)

theorem uce_nonneg {n : ℕ} {p : ℝ} (hp0 : 0 < p) (hp1 : p < 1) :
    0 ≤ upper_connected_estimate n p :=
  mul_nonneg (claw_upper_nonneg n hp0 hp1)
    (le_min (by norm_num)
      (exp_simp_clique_nonneg n hp0.le hp1.le n))

theorem uce_le_one {n : ℕ} {p : ℝ} (hp0 : 0 < p) (hp1 : p < 1) :
    upper_connected_estimate n p ≤ 1 :=
  mul_le_one (claw_upper_le_one n hp0 hp1)
    (le_min (by norm_num) (exp_simp_clique_nonneg n hp0.le hp1.le n))
    (min_le_left _ _)

theorem lce_le_uce {n : ℕ} (hn : 1 ≤ n) {p : ℝ} (hp0 : 0 < p) (hp1 : p < 1) :
    lower_connected_estimate n p ≤ upper_connected_estimate n p :=
  mul_le_mul (claw_lower_le_claw_upper n hp0 hp1) (bsmc_le_min hn hn hp0 hp1)
    (bsmc_pos hn hn hp0 hp1).le (claw_upper_nonneg n hp0 hp1)

theorem lue_nonneg {n : ℕ} (hn : 2 ≤ n) {p : ℝ} (hp0 : 0 < p) (hp1 : p < 1) :
    0 ≤ lower_unconnected_estimate n p := by
  unfold lower_unconnected_estimate
  have hs := sparse_size_pos hn
  split_ifs with h1 h2
  · exact mul_nonneg (pow_nonneg (claw_lower_nonneg _ p) _)
      (pow_nonneg (bsmc_pos hs hs hp0 hp1).le _)
  · exact mul_nonneg (claw_lower_nonneg n p) (bsmc_pos (by omega) (by omega) hp0 hp1).le
  · exact lce_nonneg (by omega) hp0 hp1

theorem lue_le_one {n : ℕ} (hn : 2 ≤ n) {p : ℝ} (hp0 : 0 < p) (hp1 : p < 1) :
    lower_unconnected_estimate n p ≤ 1 := by
  unfold lower_unconnected_estimate
  have hs := sparse_size_pos hn
  split_ifs with h1 h2
  · exact mul_le_one
      (pow_le_one₀ (claw_lower_nonneg _ p) (claw_lower_le_one _ hp0.le hp1.le))
      (pow_nonneg (bsmc_pos hs hs hp0 hp1).le _)
      (pow_le_one₀ (bsmc_pos hs hs hp0 hp1).le (bsmc_le_one hs hs hp0 hp1))
  · exact mul_le_one (claw_lower_le_one n hp0.le hp1.le)
      (bsmc_pos (by omega) (by omega) hp0 hp1).le
      (bsmc_le_one (by omega) (by omega) hp0 hp1)
  · exact lce_le_one (by omega) hp0 hp1

theorem uue_nonneg {n : ℕ} (hn : 2 ≤ n) {p : ℝ} (hp0 : 0 < p) (hp1 : p < 1) :
    0 ≤ upper_unconnected_estimate n p := by
  unfold upper_unconnected_estimate
  split_ifs with h1 h2
  · exact mul_nonneg (pow_nonneg (claw_upper_nonneg _ hp0 hp1) _)
      (pow_nonneg (le_min (by norm_num)
        (exp_simp_clique_nonneg _ hp0.le hp1.le _)) _)
  · exact mul_nonneg (claw_lower_nonneg n p) (bsmc_pos (by omega) (by omega) hp0 hp1).le
  · exact uce_nonneg hp0 hp1

theorem uue_le_one {n : ℕ} (hn : 2 ≤ n) {p : ℝ} (hp0 : 0 < p) (hp1 : p < 1) :
    upper_unconnected_estimate n p ≤ 1 := by
  unfold upper_unconnected_estimate
  split_ifs with h1 h2
  · exact mul_le_one
      (pow_le_one₀ (claw_upper_nonneg _ hp0 hp1) (claw_upper_le_one _ hp0 hp1))
      (pow_nonneg (le_min (by norm_num)
        (exp_simp_clique_nonneg _ hp0.le hp1.le _)) _)
      (pow_le_one₀ (le_min (by norm_num)
        (exp_simp_clique_nonneg _ hp0.le hp1.le _)) (min_le_left _ _))
  · exact mul_le_one (claw_lower_le_one n hp0.le hp1.le)
      (bsmc_pos (by omega) (by omega) hp0 hp1).le
      (bsmc_le_one (by omega) (by omega) hp0 hp1)
  · exact uce_le_one hp0 hp1

theorem lue_le_uue {n : ℕ} (hn : 2 ≤ n) {p : ℝ} (hp0 : 0 < p) (hp1 : p < 1) :
    lower_unconnected_estimate n p ≤ upper_unconnected_estimate n p := by
  unfold lower_unconnected_estimate upper_unconnected_estimate
  have hs := sparse_size_pos hn
  split_ifs with h1 h2
  · refine mul_le_mul
      (pow_le_pow_left₀ (claw_lower_nonneg _ p) (claw_lower_le_claw_upper _ hp0 hp1) _)
      (pow_le_pow_left₀ (bsmc_pos hs hs hp0 hp1).le (bsmc_le_min hs hs hp0 hp1) _)
      (pow_nonneg (bsmc_pos hs hs hp0 hp1).le _)
      (pow_nonneg (claw_upper_nonneg _ hp0 hp1) _)
  · exact le_rfl
  · exact lce_le_uce (by omega) hp0 hp1

/-! ## Assembly of the two bounds -/

theorem get_lower_bound_nonneg {n : ℕ} (hn : 2 ≤ n) {p : ℝ}
    (hp0 : 0 < p) (hp1 : p < 1) : 0 ≤ get_lower_bound n p := by
  unfold get_lower_bound
  have hc := prob_connected_pos n p
  have hc1 := prob_connected_lt_one n p
  have h1 := lce_nonneg (show 1 ≤ n by omega) hp0 hp1
  have h2 := lue_nonneg hn hp0 hp1
  have hc' : 0 ≤ 1 - prob_connected n p := by linarith
  exact add_nonneg (mul_nonneg hc.le h1) (mul_nonneg hc' h2)

theorem get_lower_bound_le_one {n : ℕ} (hn : 2 ≤ n) {p : ℝ}
    (hp0 : 0 < p) (hp1 : p < 1) : get_lower_bound n p ≤ 1 := by
  unfold get_lower_bound
  have hc := prob_connected_pos n p
  have hc1 := prob_connected_lt_one n p
  have h1 := lce_le_one (show 1 ≤ n by omega) hp0 hp1
  have h1' := lce_nonneg (show 1 ≤ n by omega) hp0 hp1
  have h2 := lue_le_one hn hp0 hp1
  have h2' := lue_nonneg hn hp0 hp1
  nlinarith

theorem get_upper_bound_le_one {n : ℕ} (hn : 2 ≤ n) {p : ℝ}
    (hp0 : 0 < p) (hp1 : p < 1) : get_upper_bound n p ≤ 1 := by
  unfold get_upper_bound
  have hc := prob_connected_pos n p
  have hc1 := prob_connected_lt_one n p
  have h1 := uce_le_one (n := n) hp0 hp1
  have h1' := uce_nonneg (n := n) hp0 hp1
  have h2 := uue_le_one hn hp0 hp1
  have h2' := uue_nonneg hn hp0 hp1
  nlinarith

theorem get_lower_bound_le_get_upper_bound {n : ℕ} (hn : 2 ≤ n) {p : ℝ}
    (hp0 : 0 < p) (hp1 : p < 1) : get_lower_bound n p ≤ get_upper_bound n p := by
  unfold get_lower_bound get_upper_bound
  have hc := prob_connected_pos n p
  have hc1 := prob_connected_lt_one n p
  have h1 := lce_le_uce (show 1 ≤ n by omega) hp0 hp1
  have h2 := lue_le_uue hn hp0 hp1
  have ha : prob_connected n p * lower_connected_estimate n p
      ≤ prob_connected n p * upper_connected_estimate n p :=
    mul_le_mul_of_nonneg_left h1 hc.le
  have hb : (1 - prob_connected n p) * lower_unconnected_estimate n p
      ≤ (1 - prob_connected n p) * upper_unconnected_estimate n p :=
    mul_le_mul_of_nonneg_left h2 (by linarith)
  linarith

/-- Claim C1. For every valid input (integer `n ≥ 2`, real `p ∈ (0,1)`), the
clipped bounds are ordered probabilities:
`0 ≤ get_lower_bound(n, p) ≤ get_upper_bound(n, p) ≤ 1`. -/
theorem clipped_bounds_ordered (n : ℕ) (p : ℝ) (hn : 2 ≤ n)
    (hp0 : 0 < p) (hp1 : p < 1) :
    0 ≤ get_lower_bound n p ∧ get_lower_bound n p ≤ get_upper_bound n p ∧
      get_upper_bound n p ≤ 1 :=
  ⟨get_lower_bound_nonneg hn hp0 hp1,
    get_lower_bound_le_get_upper_bound hn hp0 hp1,
    get_upper_bound_le_one hn hp0 hp1⟩

/-- Witness for C1 at the concrete input `n = 2`, `p = 1/2`. -/
theorem clipped_bounds_ordered_witness :
    0 ≤ get_lower_bound 2 (1 / 2) ∧
      get_lower_bound 2 (1 / 2) ≤ get_upper_bound 2 (1 / 2) ∧
      get_upper_bound 2 (1 / 2) ≤ 1 :=
  clipped_bounds_ordered 2 (1 / 2) (by norm_num) (by norm_num) (by norm_num)

/-- Claim C10. For every `n ≥ 2` and `p ∈ (0,1)`,
`prob_connected(n, p) = exp(-exp(-n*p/ln n))` lies strictly between `0` and
`1`, and each bound is the convex combination, with the strictly interior
weights `prob_connected` and `1 - prob_connected`, of its connected-regime and
unconnected-regime estimates (so the returned value is never produced by one
regime's estimate receiving the whole weight). -/
theorem bounds_strict_convex_combination (n : ℕ) (p : ℝ) (_hn : 2 ≤ n)
    (_hp0 : 0 < p) (_hp1 : p < 1) :
    (0 < prob_connected n p ∧ prob_connected n p < 1) ∧
      get_lower_bound n p
        = prob_connected n p * lower_connected_estimate n p
            + (1 - prob_connected n p) * lower_unconnected_estimate n p ∧
      get_upper_bound n p
        = prob_connected n p * upper_connected_estimate n p
            + (1 - prob_connected n p) * upper_unconnected_estimate n p :=
  ⟨⟨prob_connected_pos n p, prob_connected_lt_one n p⟩, rfl, rfl⟩

/-- Witness for C10 at the concrete input `n = 3`, `p = 1/4`. -/
theorem bounds_strict_convex_combination_witness :
    (0 < prob_connected 3 (1 / 4) ∧ prob_connected 3 (1 / 4) < 1) ∧
      get_lower_bound 3 (1 / 4)
        = prob_connected 3 (1 / 4) * lower_connected_estimate 3 (1 / 4)
            + (1 - prob_connected 3 (1 / 4)) * lower_unconnected_estimate 3 (1 / 4) ∧
      get_upper_bound 3 (1 / 4)
        = prob_connected 3 (1 / 4) * upper_connected_estimate 3 (1 / 4)
            + (1 - prob_connected 3 (1 / 4)) * upper_unconnected_estimate 3 (1 / 4) :=
  bounds_strict_convex_combination 3 (1 / 4) (by norm_num) (by norm_num) (by norm_num)

/-- Claim C8. `gnp_almost_surely_scf_get_threshold(n, p)` equals
`get_lower_bound(n, p)` exactly, for every `n` and `p` (a direct alias). -/
theorem threshold_roundtrip_alias (n : ℕ) (p : ℝ) :
    gnp_almost_surely_scf_get_threshold n p = get_lower_bound n p := rfl

/-- Claim C7. For every non-negative integer `n`: `binom(n, 0) = 1`, and
`binom(n, k) = 0` for every integer `k` with `k < 0` or `k > n`. -/
theorem binom_edge_values (n k : ℤ) (hn : 0 ≤ n) :
    binom n 0 = 1 ∧ (k < 0 ∨ n < k → binom n k = 0) := by
  constructor
  · unfold binom
    rw [if_pos ⟨hn, le_rfl, hn⟩]
    simp
  · rintro (hk | hk)
    · unfold binom
      rw [if_neg]
      rintro ⟨-, hk0, -⟩
      exact absurd hk (not_lt.mpr hk0)
    · exact binom_eq_zero_of_lt hk

/-- Witness for C7 at the concrete input `n = 5`, `k = 7`. -/
theorem binom_edge_values_witness :
    binom 5 0 = 1 ∧ ((7 : ℤ) < 0 ∨ (5 : ℤ) < 7 → binom 5 7 = 0) :=
  binom_edge_values 5 7 (by norm_num)

/-- Claim C4. `exp_claws(n, p) = n * binom(n-1, 3) * p^3 * (1-p)^3` — written out
with the binomial coefficient in closed polynomial form; in particular
`exp_claws(20, 0.5) = 302.8125`, and `0 ≤ exp_claws(n, p)` for `n ≥ 5`,
`0 < p < 1`. -/
theorem exp_claws_formula_spec (n : ℕ) (p : ℝ) (hn : 1 ≤ n) :
    exp_claws n p
        = (n : ℝ) * (((n : ℝ) - 1) * ((n : ℝ) - 2) * ((n : ℝ) - 3) / 6)
            * p ^ 3 * (1 - p) ^ 3 ∧
      exp_claws 20 (1 / 2) = 302.8125 ∧
      (5 ≤ n → 0 < p → p < 1 → 0 ≤ exp_claws n p) := by
  refine ⟨?_, ?_, fun _ h1 h2 => exp_claws_nonneg n p h1.le h2.le⟩
  · unfold exp_claws
    rw [binom_sub_one_three n hn]
  · unfold exp_claws
    rw [binom_sub_one_three 20 (by norm_num)]
    norm_num

/-- Witness for C4 at the concrete input `n = 5`, `p = 1/2`. -/
theorem exp_claws_formula_spec_witness :
    exp_claws 20 (1 / 2) = 302.8125 ∧ 0 ≤ exp_claws 5 (1 / 2) :=
  ⟨(exp_claws_formula_spec 20 (1 / 2) (by norm_num)).2.1,
    (exp_claws_formula_spec 5 (1 / 2) (by norm_num)).2.2
      (by norm_num) (by norm_num) (by norm_num)⟩

/-- Claim C3. For every `p` and `threshold`, if some `n ≥ 2` has
`get_lower_bound(n, p) < threshold`, then `gnp_almost_surely_scf_get_n`
returns the first scanned `n` (scanning `n = 2, 3, ...`) at which the bound
fails the test `lower ≥ threshold`; in particular the result is `≥ 2`. -/
theorem threshold_search_returns_first_failure (p threshold : ℝ)
    (h : ∃ n, 2 ≤ n ∧ get_lower_bound n p < threshold) :
    2 ≤ gnp_almost_surely_scf_get_n p threshold ∧
      get_lower_bound (gnp_almost_surely_scf_get_n p threshold) p < threshold ∧
      ∀ m, 2 ≤ m → get_lower_bound m p < threshold →
        gnp_almost_surely_scf_get_n p threshold ≤ m := by
  have hset : {n : ℕ | 2 ≤ n ∧ ¬ get_lower_bound n p ≥ threshold}
      = {n : ℕ | 2 ≤ n ∧ get_lower_bound n p < threshold} := by
    ext m
    simp [not_le]
  unfold gnp_almost_surely_scf_get_n
  rw [hset]
  have hne : {n : ℕ | 2 ≤ n ∧ get_lower_bound n p < threshold}.Nonempty := h
  have hmem := Nat.sInf_mem hne
  exact ⟨hmem.1, hmem.2, fun m h2 hlt => Nat.sInf_le ⟨h2, hlt⟩⟩

/-- Witness for C3 at the concrete input `p = 1/2`, `threshold = 2` (the bound
is `≤ 1 < 2` at `n = 2`, so the scan stops at its very first test). -/
theorem threshold_search_returns_first_failure_witness :
    2 ≤ gnp_almost_surely_scf_get_n (1 / 2) 2 ∧
      get_lower_bound (gnp_almost_surely_scf_get_n (1 / 2) 2) (1 / 2) < 2 :=
  ⟨(threshold_search_returns_first_failure (1 / 2) 2
      ⟨2, le_rfl, lt_of_le_of_lt
        (get_lower_bound_le_one le_rfl (by norm_num) (by norm_num)) (by norm_num)⟩).1,
    (threshold_search_returns_first_failure (1 / 2) 2
      ⟨2, le_rfl, lt_of_le_of_lt
        (get_lower_bound_le_one le_rfl (by norm_num) (by norm_num)) (by norm_num)⟩).2.1⟩

/-! ## The critical-regime branch (claim C2) -/

theorem lower_bound_critical_eq {n : ℕ} {p : ℝ} (h1 : ¬ p < 1 / (n : ℝ))
    (h2 : p < Real.log n / n) :
    get_lower_bound n p = lower_bound_connected_branch n p := by
  unfold get_lower_bound lower_bound_connected_branch lower_unconnected_estimate
    lower_connected_estimate
  rw [if_neg h1, if_pos h2]

theorem upper_bound_critical_eq {n : ℕ} {p : ℝ} (h1 : ¬ p < 1 / (n : ℝ))
    (h2 : p < Real.log n / n) :
    get_upper_bound n p
      = prob_connected n p * upper_connected_estimate n p
          + (1 - prob_connected n p) * lower_connected_estimate n p := by
  unfold get_upper_bound upper_unconnected_estimate lower_connected_estimate
  rw [if_neg h1, if_pos h2]

theorem two_lt_log_100 : (2 : ℝ) < Real.log 100 := by
  rw [Real.lt_log_iff_exp_lt (by norm_num : (0 : ℝ) < 100)]
  have h1 := Real.exp_one_lt_d9
  have hsq : Real.exp 2 = Real.exp 1 * Real.exp 1 := by
    rw [← Real.exp_add]
    norm_num
  nlinarith [Real.exp_pos 1]

theorem p_critical_100 : (1 : ℝ) / 50 < Real.log ((100 : ℕ) : ℝ) / ((100 : ℕ) : ℝ) := by
  have h100 : ((100 : ℕ) : ℝ) = (100 : ℝ) := by norm_num
  rw [h100, lt_div_iff (by norm_num : (0 : ℝ) < 100)]
  nlinarith [two_lt_log_100]

theorem exp_claws_100_ge_one : 1 ≤ exp_claws 100 (1 / 50) := by
  unfold exp_claws
  rw [binom_sub_one_three 100 (by norm_num)]
  norm_num

theorem lce_100_eq_zero : lower_connected_estimate 100 (1 / 50) = 0 := by
  unfold lower_connected_estimate inverted_first_moment
  rw [max_eq_left (by linarith [exp_claws_100_ge_one]), zero_mul]

theorem uce_100_pos : 0 < upper_connected_estimate 100 (1 / 50) := by
  unfold upper_connected_estimate
  have hgt := ismc_gt_one (n := 100) (p := 1 / 50) (by norm_num) (by norm_num) (by norm_num)
  have hfrac : 1 / inverted_second_moment_claws 100 (1 / 50) < 1 := by
    rw [div_lt_one (by linarith)]
    exact hgt
  have hE : 0 < exp_simp_clique 100 (1 / 50) 100 :=
    exp_simp_clique_pos (by norm_num) (by norm_num) (by norm_num) (by norm_num)
  have hmin : 0 < min 1 (first_moment (exp_simp_clique 100 (1 / 50) 100)) :=
    lt_min one_pos hE
  exact mul_pos (by linarith) hmin

/-- Counterexample for **C2**: at `n = 100`, `p = 1/50` — a point of the
critical regime `1/n ≤ p < log n / n` — the critical-regime branch of
`get_upper_bound` does *not* return the value the connected-regime branch of
`get_upper_bound` would return for those arguments: the overwrite at source
lines 178–179 installs the lower-bound connected-regime formulas, not the
upper-bound ones. -/
theorem critical_regime_upper_counterexample :
    (1 / ((100 : ℕ) : ℝ) ≤ 1 / 50 ∧
        (1 : ℝ) / 50 < Real.log ((100 : ℕ) : ℝ) / ((100 : ℕ) : ℝ)) ∧
      get_upper_bound 100 (1 / 50) ≠ upper_bound_connected_branch 100 (1 / 50) := by
  have hcond1 : ¬ (1 : ℝ) / 50 < 1 / ((100 : ℕ) : ℝ) := by norm_num
  refine ⟨⟨by norm_num, p_critical_100⟩, ?_⟩
  rw [upper_bound_critical_eq hcond1 p_critical_100, lce_100_eq_zero]
  unfold upper_bound_connected_branch
  have hconn0 := prob_connected_pos 100 (1 / 50)
  have hconn1 := prob_connected_lt_one 100 (1 / 50)
  have huce := uce_100_pos
  intro heq
  nlinarith [heq, huce, hconn0, hconn1]

/-- Claim C2 (amended). For every `n ≥ 2` and `p` in the critical regime
(`1/n ≤ p < log n / n`): the critical-regime branch of `get_lower_bound`
returns exactly the value the connected-regime branch of `get_lower_bound`
would return for those arguments; the critical-regime branch of
`get_upper_bound`, however, returns
`connected * upper_connected_estimate + (1 - connected) * lower_connected_estimate`
— the overwrite installs the *lower*-bound connected-regime formulas in the
unconnected slot, which differs from `get_upper_bound`'s connected-regime
branch in general. -/
theorem critical_regime_branch_behaviour (n : ℕ) (p : ℝ) (_hn : 2 ≤ n)
    (h1 : 1 / (n : ℝ) ≤ p) (h2 : p < Real.log n / n) :
    get_lower_bound n p = lower_bound_connected_branch n p ∧
      get_upper_bound n p
        = prob_connected n p * upper_connected_estimate n p
            + (1 - prob_connected n p) * lower_connected_estimate n p :=
  ⟨lower_bound_critical_eq (not_lt.mpr h1) h2,
    upper_bound_critical_eq (not_lt.mpr h1) h2⟩

/-- Witness for the amended C2 at the concrete input `n = 100`, `p = 1/50`. -/
theorem critical_regime_branch_behaviour_witness :
    get_lower_bound 100 (1 / 50) = lower_bound_connected_branch 100 (1 / 50) ∧
      get_upper_bound 100 (1 / 50)
        = prob_connected 100 (1 / 50) * upper_connected_estimate 100 (1 / 50)
            + (1 - prob_connected 100 (1 / 50)) * lower_connected_estimate 100 (1 / 50) :=
  critical_regime_branch_behaviour 100 (1 / 50) (by norm_num) (by norm_num)
    p_critical_100

/-! ## Claims C5 and C6: the division-by-zero behaviour of the estimators -/

/-- Claim C5 (the code at the failing input). `better_second_moment_cliques`
contains no guard for `exp == 0`: with `k_max = 0` the expectation
`exp_simp_clique(5, 1/2, 0)` is the empty sum `0`, and the function still
evaluates `1 / (1 + 1/exp - correction/exp²)`.  Under the total-division
convention of this embedding that value is `1` (IEEE evaluation yields
NaN via `inf - nan`), not the documented limiting value `0`. -/
theorem bsmc_unguarded_division_at_zero_exp :
    exp_simp_clique 5 (1 / 2) 0 = 0 ∧
      better_second_moment_cliques 5 (1 / 2) 0 = 1 ∧
      better_second_moment_cliques 5 (1 / 2) 0 ≠ 0 := by
  have hE : exp_simp_clique 5 (1 / 2) 0 = 0 := by
    unfold exp_simp_clique
    simp
  have hC : correction_cliques 5 (1 / 2) 0 = 0 := by
    unfold correction_cliques
    simp
  have hval : better_second_moment_cliques 5 (1 / 2) 0 = 1 := by
    unfold better_second_moment_cliques
    rw [hE, hC]
    norm_num
  exact ⟨hE, hval, by rw [hval]; norm_num⟩

/-- Counterexample for **C6**: at `exp = 0` (a value with `exp ≥ 0`),
`second_moment` evaluates `1/exp` with a zero divisor, so its evaluation
fails instead of returning a value — it is not total on `exp ≥ 0`. -/
theorem second_moment_fails_at_zero :
    (0 : ℝ) ≤ 0 ∧ second_moment 0 = none := by
  refine ⟨le_rfl, ?_⟩
  unfold second_moment
  rw [if_pos rfl]

/-- Claim C6 (amended). `second_moment(exp) = 1/(1 + 1/exp)` and
`inverted_second_moment(exp) = 1/(exp + 1)`; `inverted_second_moment` is
well-defined (no division-by-zero failure) for every `exp ≥ 0`, while
`second_moment` is well-defined for every `exp > 0` — at `exp = 0` it
evaluates `1/exp` with a zero divisor. -/
theorem moment_transforms_welldefined (exp : ℝ) :
    (0 < exp → second_moment exp = some (1 / (1 + 1 / exp))) ∧
      (0 ≤ exp → inverted_second_moment exp = some (1 / (exp + 1))) := by
  constructor
  · intro h
    unfold second_moment
    have hpos : 0 < 1 + 1 / exp := by positivity
    rw [if_neg (ne_of_gt h), if_neg (ne_of_gt hpos)]
  · intro h
    unfold inverted_second_moment
    have hpos : 0 < exp + 1 := by positivity
    rw [if_neg (ne_of_gt hpos)]

/-- Witness for the amended C6 at the concrete input `exp = 1`. -/
theorem moment_transforms_welldefined_witness :
    second_moment 1 = some (1 / (1 + 1 / 1)) ∧
      inverted_second_moment 1 = some (1 / (1 + 1)) :=
  ⟨(moment_transforms_welldefined 1).1 (by norm_num),
    (moment_transforms_welldefined 1).2 (by norm_num)⟩
